import Mathlib

/-!
Verification development for the employee-faq-bot repository.

The repository is a collection of near-duplicate serverless FAQ handlers.
Strings are modelled as `List Char`.  The Unicode-dependent pieces of the
sources (`String.prototype.normalize("NFKD"/"NFD")`, `\p{Diacritic}`,
`toLowerCase`, `trim`) are modelled on the character repertoire actually
exercised by the sources and this development: ASCII, the Danish/Norwegian
letters Æ/æ, Ø/ø, Å/å, the accented letters É/é, and the combining marks
U+030A (ring above) and U+0301 (acute).  On this repertoire the modelled
functions agree with the JavaScript ones; characters outside the repertoire
are treated as inert (no decomposition, no case mapping), which matches
JavaScript for all characters appearing in any concrete input below.
-/

/-- Combining ring above, U+030A. -/
def cRing : Char := Char.ofNat 0x30A

/-- Combining acute accent, U+0301. -/
def cAcute : Char := Char.ofNat 0x301

/-- JS whitespace (`\s`, and the class removed by `String.prototype.trim`),
on the modelled repertoire: space, tab, LF, VT, FF, CR. -/
def isWS (c : Char) : Bool :=
  c.toNat = 32 || c.toNat = 9 || c.toNat = 10 || c.toNat = 11 ||
  c.toNat = 12 || c.toNat = 13

/-- The `\p{Diacritic}` character class (and, on the modelled repertoire,
also the `[̀-ͯ]` range used by the other revisions). -/
def isDiacritic (c : Char) : Bool := c = cRing || c = cAcute

/-- Per-character NFKD decomposition on the modelled repertoire.  The
repertoire only contains canonically decomposable letters, so NFD and NFKD
coincide; clusters have at most one combining mark, so no canonical
reordering is needed and string-level normalization is the concatenation of
the per-character decompositions. -/
def nfkdChar (c : Char) : List Char :=
  if c = 'Å' then ['A', cRing]
  else if c = 'å' then ['a', cRing]
  else if c = 'É' then ['E', cAcute]
  else if c = 'é' then ['e', cAcute]
  else [c]

/-- Per-character NFD decomposition; on the modelled repertoire it is the
same table as NFKD (only canonical decompositions are present). -/
def nfdChar (c : Char) : List Char := nfkdChar c

/-- `String.prototype.toLowerCase`, modelled per character: the special
letters of the repertoire, then the ASCII range, everything else inert. -/
def jsLower (c : Char) : Char :=
  if c = 'Æ' then 'æ'
  else if c = 'Ø' then 'ø'
  else if c = 'Å' then 'å'
  else if c = 'É' then 'é'
  else if 65 ≤ c.toNat ∧ c.toNat ≤ 90 then Char.ofNat (c.toNat + 32)
  else c

/-- `String.prototype.trim`: drop leading and trailing whitespace. -/
def trimL (s : List Char) : List Char :=
  ((s.dropWhile isWS).reverse.dropWhile isWS).reverse

/-- `replace(/\s+/g, " ")`: collapse every whitespace run to one space. -/
def collapseWS (s : List Char) : List Char :=
  s.foldr
    (fun c acc =>
      if isWS c then
        match acc with
        | [] => [' ']
        | d :: rest => if d = ' ' then d :: rest else ' ' :: d :: rest
      else c :: acc)
    []

/-- Does `hay` start with `needle`?  (Helper for JS `String.includes`.) -/
def leadsWith : List Char → List Char → Bool
  | [], _ => true
  | _ :: _, [] => false
  | a :: as, b :: bs => a = b && leadsWith as bs

/-- JS `hay.includes(needle)`: `needle` occurs contiguously in `hay`. -/
def containsSub (needle : List Char) : List Char → Bool
  | [] => leadsWith needle []
  | c :: rest => leadsWith needle (c :: rest) || containsSub needle rest

/-- Convert a Lean string literal to the `List Char` representation. -/
def chars (s : String) : List Char := s.toList

namespace Dice

/-- The punctuation class of the bigram revision's normalize:
`[?!.,:;()\[\]{}/\\'"`~^%€$#@*-]` (characters given by code point). -/
def isPunct (c : Char) : Bool :=
  c.toNat ∈ [63, 33, 46, 44, 58, 59, 40, 41, 91, 93, 123, 125, 47, 92,
             39, 34, 96, 126, 94, 37, 8364, 36, 35, 64, 42, 45]

/-- normalize of the Dice revision (src/unnamed/part_002, second handler):
lower-case, replace punctuation runs by a space, collapse whitespace, trim.
(Replacing a punctuation run by one space and then collapsing whitespace
runs is the same as replacing each punctuation character by a space and
then collapsing, which is how it is written here.) -/
def normalize (s : List Char) : List Char :=
  trimL (collapseWS (s.map (fun c => if isPunct c then ' ' else jsLower c)))

/-- Overlapping character bigrams of a string, in order. -/
def bigrams : List Char → List (Char × Char)
  | a :: b :: rest => (a, b) :: bigrams (b :: rest)
  | _ => []

/-- The `overlap` accumulation of diceCoefficient: iterate over the
distinct bigrams of `A` (a JS `Map` iterates each key once) and add the
minimum of the multiplicities in `A` and in `B`. -/
def overlap (A B : List (Char × Char)) : ℕ :=
  (A.dedup.map (fun bg => min (A.count bg) (B.count bg))).sum

/-- diceCoefficient of src/unnamed/part_002: bigram Dice similarity with
multiset intersection; the JS `sizeA + sizeB || 1` guard is the `if` on
the denominator. -/
def diceCoefficient (a b : List Char) : ℚ :=
  if normalize a = [] ∨ normalize b = [] then 0
  else if normalize a = normalize b then 1
  else
    (2 * overlap (bigrams (normalize a)) (bigrams (normalize b)) : ℚ) /
      (if (bigrams (normalize a)).length + (bigrams (normalize b)).length = 0 then 1
       else ((bigrams (normalize a)).length + (bigrams (normalize b)).length : ℚ))

end Dice

/-- A knowledge-bank entry as built by getRows in src/api/ask.js
(`{id, title, answer}`; the opaque external id plays no role in matching
and is omitted). -/
structure Entry where
  title : List Char
  answer : List Char
deriving DecidableEq, Repr

/-- Provenance instrumentation: which return site of the handler produced
the response (the spec's `ResolutionResult.source`). -/
inductive Tag where
  | exact | semantic | keyword | fuzzy | noMatch
deriving DecidableEq, Repr

/-- The handler's response: an HTTP error (status code and message) or a
200 answer, tagged with the stage that produced it. -/
inductive Resp where
  | httpError (code : ℕ) (msg : List Char)
  | answered (answer : List Char) (tag : Tag)
deriving DecidableEq, Repr

/-- The canned not-found answer of src/api/ask.js
("Sorry, I couldn't find an answer.", apostrophe written by code). -/
def cannedAnswer : List Char :=
  chars "Sorry, I couldn" ++ [Char.ofNat 39] ++ chars "t find an answer."

namespace Ask

/-- normalize of src/api/ask.js: NFKD, strip `\p{Diacritic}`, lower-case,
trim. -/
def normalize (s : List Char) : List Char :=
  trimL (((s.map nfkdChar).flatten.filter (fun c => !isDiacritic c)).map jsLower)

/-- One inner iteration block of the Levenshtein dynamic program
(src/api/ask.js lines 14-18): given the character `x` of row `i`, the
remaining characters of `b`, the previous row from position `j` on, the
diagonal value `dp[i-1][j-1]` and the value to the left `dp[i][j-1]`,
produce the new row from position `j` on.  Each cell is
`min(dp[i-1][j]+1, dp[i][j-1]+1, dp[i-1][j-1]+cost)`. -/
def levRowAux (x : Char) : List Char → List ℕ → ℕ → ℕ → List ℕ
  | [], _, _, _ => []
  | _ :: _, [], _, _ => []
  | y :: ys, pv :: pvs, diag, left =>
    let cur := min (min (pv + 1) (left + 1)) (diag + (if x = y then 0 else 1))
    cur :: levRowAux x ys pvs pv cur

/-- The Levenshtein dynamic program of src/api/ask.js lines 8-21, row by
row: `dp[0]` is `[0,1,…,n]`, each further row starts with `dp[i][0] = i`,
and the result is the last cell of the last row. -/
def levDP (a b : List Char) : ℕ :=
  (a.foldl
    (fun prev x =>
      (prev.headD 0 + 1) ::
        levRowAux x b (prev.drop 1) (prev.headD 0) (prev.headD 0 + 1))
    (List.range (b.length + 1))).getLastD 0

/-- levenshtein of src/api/ask.js: both arguments are normalized first. -/
def levenshtein (a b : List Char) : ℕ :=
  levDP (normalize a) (normalize b)

/-- The exact/containment stage (lines 64-69): first entry whose
normalized title contains the normalized query or vice versa. -/
def exactStage (q : List Char) (bank : List Entry) : Option Entry :=
  bank.find? (fun it =>
    containsSub (normalize q) (normalize it.title) ||
    containsSub (normalize it.title) (normalize q))

/-- The contact half of the keyword fallback (lines 115-118). -/
def contactStage (q : List Char) (bank : List Entry) : Option Entry :=
  if containsSub (chars "kontakt") (normalize q) ||
     containsSub (chars "skriv") (normalize q) ||
     containsSub (chars "besked") (normalize q) ||
     containsSub (chars "message") (normalize q) then
    bank.find? (fun it => containsSub (chars "kontakt") (normalize it.title))
  else none

/-- The recruiting half of the keyword fallback (lines 120-123); the
`/rekrut|recruit/i` regex test is a case-insensitive substring check on
the raw title. -/
def recruitStage (q : List Char) (bank : List Entry) : Option Entry :=
  if containsSub (chars "rekrut") (normalize q) ||
     containsSub (chars "recruit") (normalize q) ||
     containsSub (chars "spill") (normalize q) ||
     containsSub (chars "spiller") (normalize q) then
    bank.find? (fun it =>
      containsSub (chars "rekrut") (it.title.map jsLower) ||
      containsSub (chars "recruit") (it.title.map jsLower))
  else none

/-- dot of src/api/ask.js line 91 (`a.reduce((s,v,i)=>s+v*b[i],0)`),
summing over the paired coordinates. -/
def dot : List ℝ → List ℝ → ℝ
  | x :: xs, y :: ys => x * y + dot xs ys
  | _, _ => 0

/-- Sum of squares (the radicand of mag, line 92). -/
def sumSq : List ℝ → ℝ
  | [] => 0
  | x :: xs => x * x + sumSq xs

/-- mag of src/api/ask.js line 92. -/
noncomputable def mag (a : List ℝ) : ℝ := Real.sqrt (sumSq a)

/-- cosSim of src/api/ask.js line 93: `dot(a,b)/(mag(a)*mag(b) || 1)` —
a zero denominator is replaced by 1. -/
noncomputable def cosSim (a b : List ℝ) : ℝ :=
  dot a b / (if mag a * mag b = 0 then 1 else mag a * mag b)

open Classical in
/-- The best-candidate loop of the semantic stage (lines 102-106): best
cosine score against the embedded query, strictly greater than the running
score, starting from score -1 and no item, so the first maximum wins. -/
noncomputable def semBest (emb : List Char → List ℝ) (q : List Char)
    (bank : List Entry) : ℝ × Option Entry :=
  bank.foldl
    (fun best it =>
      if cosSim (emb q) (emb it.title) > best.1
      then (cosSim (emb q) (emb it.title), some it) else best)
    ((-1 : ℝ), (none : Option Entry))

open Classical in
/-- The semantic stage (lines 72-110): embed every title and the query,
take the best cosine score, and accept only at score ≥ 0.27 (line 108). -/
noncomputable def semanticStage (emb : List Char → List ℝ) (q : List Char)
    (bank : List Entry) : Option Entry :=
  match (semBest emb q bank).2 with
  | some it => if (semBest emb q bank).1 ≥ 0.27 then some it else none
  | none => none

/-- The semantic stage runs only when an embedding collaborator exists
(`useEmb = !!process.env.OPENAI_API_KEY`, line 72). -/
noncomputable def semOpt (embQ : Option (List Char → List ℝ)) (q : List Char)
    (bank : List Entry) : Option Entry :=
  match embQ with
  | some emb => semanticStage emb q bank
  | none => none

/-- `Math.max(2, Math.ceil(q.length * 0.35))` (line 131).  The ceiling of
`35·n/100` is written with Nat ceiling division; this is exact rational
arithmetic and agrees with the JS float computation on all realistic
lengths. -/
def maxDist (q : List Char) : ℕ :=
  max 2 ((35 * q.length + 99) / 100)

/-- The fuzzy best-candidate loop (lines 126-130): strict `<` against the
running distance, starting from infinity (`none`), so the first minimum
wins. -/
def fuzzyBest (q : List Char) (bank : List Entry) : Option (ℕ × Entry) :=
  bank.foldl
    (fun best it =>
      let d := levenshtein q it.title
      match best with
      | none => some (d, it)
      | some (bd, be) => if d < bd then some (d, it) else some (bd, be))
    none

/-- The matching core of the handler in src/api/ask.js: missing-query
check, empty-bank check, then exact/containment, optional semantic,
keyword (contact then recruit), and the tolerance-guarded fuzzy stage,
each returning as soon as it accepts. -/
noncomputable def resolve (embQ : Option (List Char → List ℝ)) (q : List Char)
    (bank : List Entry) : Resp :=
  if q = [] then Resp.httpError 400 (chars "Missing q")
  else if bank = [] then Resp.httpError 500 (chars "Empty database")
  else
    match exactStage q bank with
    | some e => Resp.answered e.answer Tag.exact
    | none =>
      match semOpt embQ q bank with
      | some e => Resp.answered e.answer Tag.semantic
      | none =>
        match contactStage q bank with
        | some e => Resp.answered e.answer Tag.keyword
        | none =>
          match recruitStage q bank with
          | some e => Resp.answered e.answer Tag.keyword
          | none =>
            match fuzzyBest q bank with
            | some (d, e) =>
              if d ≤ maxDist q then Resp.answered e.answer Tag.fuzzy
              else Resp.answered cannedAnswer Tag.noMatch
            | none => Resp.answered cannedAnswer Tag.noMatch

/-- A pipeline stage in the spec's `tryMatch(query, bank)` idiom, paired
with its provenance tag. -/
def StageFn : Type := List Char → List Entry → Option Entry

/-- Run stages in order: the first stage that yields an accepted candidate
determines the answer, and no later stage is consulted; if none accepts,
the canned not-found payload is returned. -/
def runStages : List (StageFn × Tag) → List Char → List Entry → Resp
  | [], _, _ => Resp.answered cannedAnswer Tag.noMatch
  | (f, t) :: rest, q, bank =>
    match f q bank with
    | some e => Resp.answered e.answer t
    | none => runStages rest q bank

/-- The keyword stage as a single stage object: contact synonyms first,
then recruiting synonyms. -/
def keywordStage : StageFn := fun q bank =>
  match contactStage q bank with
  | some e => some e
  | none => recruitStage q bank

/-- The fuzzy stage as a stage object: the minimum-distance entry,
accepted only within the length-relative tolerance. -/
def fuzzyStage : StageFn := fun q bank =>
  match fuzzyBest q bank with
  | some (d, e) => if d ≤ maxDist q then some e else none
  | none => none

/-- The stage order actually implemented by src/api/ask.js:
exact, semantic, keyword, fuzzy. -/
noncomputable def codeStages (embQ : Option (List Char → List ℝ)) :
    List (StageFn × Tag) :=
  [(exactStage, Tag.exact), (semOpt embQ, Tag.semantic),
   (keywordStage, Tag.keyword), (fuzzyStage, Tag.fuzzy)]

/-- The stage order stated by the specification:
exact, keyword, semantic, fuzzy. -/
noncomputable def specStages (embQ : Option (List Char → List ℝ)) :
    List (StageFn × Tag) :=
  [(exactStage, Tag.exact), (keywordStage, Tag.keyword),
   (semOpt embQ, Tag.semantic), (fuzzyStage, Tag.fuzzy)]

end Ask

/-- A raw store row before entry construction: the `plain_text` fragments
of the Question property and of the Answer property. -/
structure RawRow where
  questionParts : List (List Char)
  answerParts : List (List Char)

/-- Property extraction shared by all revisions: join the text fragments
with a single space and trim. -/
def joinParts (parts : List (List Char)) : List Char :=
  trimL (List.intercalate [' '] parts)

namespace Ask

/-- The row-construction core of getRows (src/api/ask.js lines 35-41):
build `{title, answer}` from each row and keep a row only if both `title`
and `answer` are non-empty (JS truthiness of the trimmed strings). -/
def getRows (rows : List RawRow) : List Entry :=
  (rows.map (fun r => Entry.mk (joinParts r.questionParts) (joinParts r.answerParts))).filter
    (fun e => decide (e.title ≠ []) && decide (e.answer ≠ []))

end Ask

namespace P001

/-- A question/answer item of src/unnamed/part_001's embedding revision. -/
structure QA where
  question : List Char
  answer : List Char
deriving DecidableEq, Repr

/-- The row-mapping core of listAllQA (src/unnamed/part_001 lines
105-116): build `{question, answer}` from each row, then keep a row iff
its question is non-empty (`.filter(x => x.question)` — the answer is not
checked). -/
def listAllQA (rows : List RawRow) : List QA :=
  (rows.map (fun r => QA.mk (joinParts r.questionParts) (joinParts r.answerParts))).filter
    (fun x => decide (x.question ≠ []))

/-- cosine of src/unnamed/part_001 lines 81-89: dot product over the
product of the norms, with no zero-norm guard.  JS division by a zero
denominator yields NaN (or ±Infinity), never a number equal to 0; that
non-numeric outcome is modelled as `none`. -/
noncomputable def cosine (a b : List ℝ) : Option ℝ :=
  if Real.sqrt (Ask.sumSq a) * Real.sqrt (Ask.sumSq b) = 0 then none
  else some (Ask.dot a b / (Real.sqrt (Ask.sumSq a) * Real.sqrt (Ask.sumSq b)))

end P001

namespace P002

/-- normalize of src/unnamed/part_002's first handler (lines 9-15):
lower-case, NFD, strip the `[̀-ͯ]` combining range, fold æ/ø/å to
ae/oe/aa, collapse whitespace, trim. -/
def normalize (s : List Char) : List Char :=
  trimL (collapseWS
    ((((s.map jsLower).map nfdChar).flatten.filter (fun c => !isDiacritic c)).map
        (fun c =>
          if c = 'æ' then ['a', 'e']
          else if c = 'ø' then ['o', 'e']
          else if c = 'å' then ['a', 'a']
          else [c])).flatten)

/-- The bank construction of src/unnamed/part_002's first handler (lines
55-58): `{title, answer}` rows, kept only when both are non-empty. -/
def bank (rows : List RawRow) : List Entry :=
  (rows.map (fun r => Entry.mk (joinParts r.questionParts) (joinParts r.answerParts))).filter
    (fun e => decide (e.title ≠ []) && decide (e.answer ≠ []))

end P002

/-- A concrete embedding collaborator used to separate the code's stage
order from the specified one: the title "kontakt os" maps to the unit
vector e1, every other string to the unit vector e2. -/
noncomputable def embDemo (s : List Char) : List ℝ :=
  if s = chars "kontakt os" then [1, 0] else [0, 1]

/-- A concrete two-entry bank: a contact entry (which the keyword stage
matches for the query "besked") and an unrelated entry (which `embDemo`
makes the semantic stage's best candidate). -/
def bankC1 : List Entry :=
  [Entry.mk (chars "kontakt os") (chars "K"), Entry.mk (chars "xyzw") (chars "B")]

lemma leadsWith_refl (l : List Char) : leadsWith l l = true := by
  induction l with
  | nil => rfl
  | cons c r ih => simp [leadsWith, ih]

lemma containsSub_nil_true (h : List Char) : containsSub [] h = true := by
  cases h <;> rfl

lemma containsSub_self (l : List Char) : containsSub l l = true := by
  cases l with
  | nil => rfl
  | cons c r => unfold containsSub; rw [leadsWith_refl]; rfl

lemma exactStage_isSome_of_mem {bank : List Entry} {E : Entry} (hE : E ∈ bank) :
    (Ask.exactStage E.title bank).isSome := by
  unfold Ask.exactStage
  rw [List.find?_isSome]
  exact ⟨E, hE, by rw [containsSub_self]; rfl⟩

/-- Claim C3 (corrected): only a missing or empty-string query is rejected
with HTTP 400 "Missing q"; since the check precedes every stage, no stage
runs for it.  (A whitespace-only query is not rejected — see the
counterexample.) -/
theorem C3_amended (embQ : Option (List Char → List ℝ)) (bank : List Entry) :
    Ask.resolve embQ [] bank = Resp.httpError 400 (chars "Missing q") := by
  unfold Ask.resolve
  rw [if_pos rfl]

/-- Claim C3, counterexample: the query " " is empty after trimming, yet
the handler does not return 400 — the `!q` check does not trim, so the
query reaches the matching stages and the exact/containment stage answers. -/
theorem C3_counterexample :
    Ask.resolve none (chars " ") [Entry.mk (chars "kontor") (chars "svar")] =
      Resp.answered (chars "svar") Tag.exact ∧
    Ask.resolve none (chars " ") [Entry.mk (chars "kontor") (chars "svar")] ≠
      Resp.httpError 400 (chars "Missing q") := by
  decide

/-- Claim C10 (confirmed): a non-empty query whose normalization is empty
passes the missing-query check, and the exact/containment stage accepts
the first entry of the bank, because every normalized title contains the
empty string. -/
theorem C10_normEmptyQuery (embQ : Option (List Char → List ℝ)) (q : List Char)
    (e : Entry) (rest : List Entry) (hq : q ≠ []) (hn : Ask.normalize q = []) :
    Ask.resolve embQ q (e :: rest) = Resp.answered e.answer Tag.exact := by
  have hex : Ask.exactStage q (e :: rest) = some e := by
    unfold Ask.exactStage
    apply List.find?_cons_of_pos
    rw [hn, containsSub_nil_true]
    rfl
  unfold Ask.resolve
  rw [if_neg hq, if_neg (List.cons_ne_nil e rest), hex]

/-- Claim C10, witness: the whitespace query "  " normalizes to the empty
string and gets the first entry's answer from the exact stage. -/
theorem C10_witness :
    (chars "  ") ≠ [] ∧ Ask.normalize (chars "  ") = [] ∧
    Ask.resolve none (chars "  ")
        [Entry.mk (chars "kontortid") (chars "9-17"),
         Entry.mk (chars "mission") (chars "vinde")] =
      Resp.answered (chars "9-17") Tag.exact :=
  ⟨by decide, by decide, C10_normEmptyQuery none _ _ _ (by decide) (by decide)⟩

/-- Claim C1 (corrected): for every query and fixed bank, the handler is
the first-accepted-candidate cascade over the stages in the order exact,
SEMANTIC, KEYWORD, fuzzy (the code runs the semantic stage before the
keyword stage, not after as the specification orders them); in particular
when the exact stage accepts, no later stage is consulted. -/
theorem C1_amended (embQ : Option (List Char → List ℝ)) (q : List Char)
    (bank : List Entry) (hq : q ≠ []) (hb : bank ≠ []) :
    Ask.resolve embQ q bank = Ask.runStages (Ask.codeStages embQ) q bank := by
  unfold Ask.resolve Ask.codeStages
  rw [if_neg hq, if_neg hb]
  simp only [Ask.runStages, Ask.keywordStage, Ask.fuzzyStage]
  cases hex : Ask.exactStage q bank with
  | some e => rfl
  | none =>
    cases hsem : Ask.semOpt embQ q bank with
    | some e => rfl
    | none =>
      cases hcon : Ask.contactStage q bank with
      | some e => rfl
      | none =>
        cases hrec : Ask.recruitStage q bank with
        | some e => rfl
        | none =>
          cases hfz : Ask.fuzzyBest q bank with
          | none => rfl
          | some de =>
            obtain ⟨d, e⟩ := de
            by_cases hd : d ≤ Ask.maxDist q
            · simp only [if_pos hd]
            · simp only [if_neg hd]

/-- Claim C1, witness: at a concrete query and bank (no embedding
collaborator) the handler agrees with the exact-semantic-keyword-fuzzy
cascade. -/
theorem C1_witness :
    Ask.resolve none (chars "hello") [Entry.mk (chars "zzz") (chars "y")] =
      Ask.runStages (Ask.codeStages none) (chars "hello") [Entry.mk (chars "zzz") (chars "y")] :=
  C1_amended none (chars "hello") [Entry.mk (chars "zzz") (chars "y")]
    (by decide) (by decide)

/-- Claim C1, counterexample: with the embedding collaborator `embDemo`
and the bank `bankC1`, the query "besked" is answered by the SEMANTIC
stage with "B", while the specified order exact-keyword-semantic-fuzzy
would have the keyword stage answer "K" — so the keyword stage does not
precede the semantic stage in the code. -/
theorem C1_counterexample :
    Ask.resolve (some embDemo) (chars "besked") bankC1 =
      Resp.answered (chars "B") Tag.semantic ∧
    Ask.runStages (Ask.specStages (some embDemo)) (chars "besked") bankC1 =
      Resp.answered (chars "K") Tag.keyword ∧
    chars "B" ≠ chars "K" := by
  refine ⟨?_, by decide, by decide⟩
  have hqv : embDemo (chars "besked") = [0, 1] := by
    unfold embDemo; rw [if_neg (by decide)]
  have h1 : embDemo (chars "kontakt os") = [1, 0] := by
    unfold embDemo; rw [if_pos rfl]
  have h2 : embDemo (chars "xyzw") = [0, 1] := by
    unfold embDemo; rw [if_neg (by decide)]
  have hd1 : Ask.dot [(0 : ℝ), 1] [(1 : ℝ), 0] = 0 := by
    simp [Ask.dot]
  have c1 : Ask.cosSim [(0 : ℝ), 1] [(1 : ℝ), 0] = 0 := by
    unfold Ask.cosSim
    rw [hd1, zero_div]
  have hmag : Ask.mag [(0 : ℝ), 1] = 1 := by
    unfold Ask.mag
    have hs : Ask.sumSq [(0 : ℝ), 1] = 1 := by simp [Ask.sumSq]
    rw [hs, Real.sqrt_one]
  have c2 : Ask.cosSim [(0 : ℝ), 1] [(0 : ℝ), 1] = 1 := by
    unfold Ask.cosSim
    have hd2 : Ask.dot [(0 : ℝ), 1] [(0 : ℝ), 1] = 1 := by simp [Ask.dot]
    rw [hd2, hmag, if_neg (by norm_num)]
    norm_num
  have hbest : Ask.semBest embDemo (chars "besked") bankC1 =
      (1, some (Entry.mk (chars "xyzw") (chars "B"))) := by
    unfold Ask.semBest bankC1
    simp only [List.foldl]
    rw [hqv, h1, h2, c1, c2]
    norm_num
  have hsem : Ask.semanticStage embDemo (chars "besked") bankC1 =
      some (Entry.mk (chars "xyzw") (chars "B")) := by
    unfold Ask.semanticStage
    rw [hbest]
    norm_num
  have hex : Ask.exactStage (chars "besked") bankC1 = none := by decide
  unfold Ask.resolve
  rw [if_neg (by decide), if_neg (by decide)]
  simp only [hex, Ask.semOpt, hsem]

/-- Claim C2 (corrected): querying with an entry's own question always
succeeds at the exact/containment stage, but the returned answer is that
of the first entry of the bank whose normalized title is in containment
relation with the normalized query — which is E's answer only when E is
that first match. -/
theorem C2_amended (embQ : Option (List Char → List ℝ)) (bank : List Entry)
    (E : Entry) (hE : E ∈ bank) (ht : E.title ≠ []) :
    ∃ F ∈ bank, Ask.exactStage E.title bank = some F ∧
      Ask.resolve embQ E.title bank = Resp.answered F.answer Tag.exact := by
  obtain ⟨F, hF⟩ := Option.isSome_iff_exists.mp (exactStage_isSome_of_mem hE)
  have hFmem : F ∈ bank := by
    have hF' := hF
    unfold Ask.exactStage at hF'
    exact List.mem_of_find?_eq_some hF'
  refine ⟨F, hFmem, hF, ?_⟩
  unfold Ask.resolve
  rw [if_neg ht, if_neg (List.ne_nil_of_mem hE), hF]

/-- Claim C2, witness: with a one-entry bank the exact stage returns that
entry's own answer. -/
theorem C2_witness :
    ∃ F ∈ [Entry.mk (chars "adresse") (chars "Main St 1")],
      Ask.exactStage (chars "adresse") [Entry.mk (chars "adresse") (chars "Main St 1")] = some F ∧
      Ask.resolve none (chars "adresse") [Entry.mk (chars "adresse") (chars "Main St 1")] =
        Resp.answered F.answer Tag.exact :=
  C2_amended none [Entry.mk (chars "adresse") (chars "Main St 1")]
    (Entry.mk (chars "adresse") (chars "Main St 1")) (by decide) (by decide)

/-- Claim C2, counterexample: for E = {ice, A2}, resolve(E.question)
matches the earlier entry {office, A1} (whose normalized title contains
"ice") and returns A1, not E's answer A2. -/
theorem C2_counterexample :
    Ask.resolve none (chars "ice")
        [Entry.mk (chars "office") (chars "A1"), Entry.mk (chars "ice") (chars "A2")] =
      Resp.answered (chars "A1") Tag.exact ∧
    Entry.mk (chars "ice") (chars "A2") ∈
      [Entry.mk (chars "office") (chars "A1"), Entry.mk (chars "ice") (chars "A2")] ∧
    chars "A1" ≠ chars "A2" := by
  decide

/-- Claim C9 (confirmed): when the earlier stages produce no candidate,
the fuzzy stage accepts its minimum-distance entry exactly when the
distance is within `max(2, ceil(0.35·len(query)))`, and otherwise the
canned not-found answer is returned. -/
theorem C9_fuzzyTolerance (q : List Char) (bank : List Entry) (d : ℕ) (e : Entry)
    (hq : q ≠ []) (hex : Ask.exactStage q bank = none)
    (hc : Ask.contactStage q bank = none) (hr : Ask.recruitStage q bank = none)
    (hf : Ask.fuzzyBest q bank = some (d, e)) :
    (Ask.resolve none q bank = Resp.answered e.answer Tag.fuzzy ↔ d ≤ Ask.maxDist q) ∧
    (Ask.resolve none q bank = Resp.answered cannedAnswer Tag.noMatch ↔ Ask.maxDist q < d) := by
  have hb : bank ≠ [] := by
    intro h
    rw [h] at hf
    simp [Ask.fuzzyBest] at hf
  unfold Ask.resolve
  rw [if_neg hq, if_neg hb]
  simp only [hex, Ask.semOpt, hc, hr, hf]
  rcases Nat.lt_or_ge (Ask.maxDist q) d with hd | hd
  · rw [if_neg (by omega)]
    exact ⟨iff_of_false (by simp) (by omega), iff_of_true rfl hd⟩
  · rw [if_pos (by omega)]
    exact ⟨iff_of_true rfl (by omega), iff_of_false (by simp) (by omega)⟩

/-- Claim C9, witness: for query "zz" against a bank whose only title is
"qqqq", the minimum distance 4 exceeds the tolerance max(2, ceil(0.7)) = 2,
so resolve returns the canned answer. -/
theorem C9_witness :
    Ask.resolve none (chars "zz") [Entry.mk (chars "qqqq") (chars "A")] =
      Resp.answered cannedAnswer Tag.noMatch :=
  (C9_fuzzyTolerance (chars "zz") [Entry.mk (chars "qqqq") (chars "A")] 4
      (Entry.mk (chars "qqqq") (chars "A")) (by decide) (by decide) (by decide)
      (by decide) (by decide)).2.mpr (by decide)

/-- Claim C8 (corrected): the getRows loader of src/api/ask.js and the
bank construction of src/unnamed/part_002 keep a row only when both the
question and the answer are non-empty; the listAllQA loader of
src/unnamed/part_001, however, checks only the question. -/
theorem C8_amended :
    (∀ rows : List RawRow, ∀ e ∈ Ask.getRows rows, e.title ≠ [] ∧ e.answer ≠ []) ∧
    (∀ rows : List RawRow, ∀ e ∈ P002.bank rows, e.title ≠ [] ∧ e.answer ≠ []) ∧
    (∀ rows : List RawRow, ∀ x ∈ P001.listAllQA rows, x.question ≠ []) := by
  refine ⟨fun rows e he => ?_, fun rows e he => ?_, fun rows x hx => ?_⟩
  · unfold Ask.getRows at he
    have := (List.mem_filter.mp he).2
    simp only [Bool.and_eq_true, decide_eq_true_eq] at this
    exact this
  · unfold P002.bank at he
    have := (List.mem_filter.mp he).2
    simp only [Bool.and_eq_true, decide_eq_true_eq] at this
    exact this
  · unfold P001.listAllQA at hx
    have := (List.mem_filter.mp hx).2
    simpa using this

/-- Claim C8, witness: a loaded row with non-empty question and answer
indeed has both fields non-empty. -/
theorem C8_witness :
    (Entry.mk (chars "q1") (chars "a1")).title ≠ [] ∧
    (Entry.mk (chars "q1") (chars "a1")).answer ≠ [] :=
  C8_amended.1 [RawRow.mk [chars "q1"] [chars "a1"]] _ (by decide)

/-- Claim C8, counterexample: listAllQA keeps a row whose answer is empty
(its filter is `x => x.question` only), so an entry with an empty answer
is present in the loaded bank and participates in matching. -/
theorem C8_counterexample :
    P001.listAllQA [RawRow.mk [chars "Who"] []] = [P001.QA.mk (chars "Who") []] ∧
    (P001.QA.mk (chars "Who") []).answer = [] := by
  decide

lemma sumSq_nonneg (a : List ℝ) : 0 ≤ Ask.sumSq a := by
  induction a with
  | nil => simp [Ask.sumSq]
  | cons x xs ih =>
    simp only [Ask.sumSq]
    exact add_nonneg (mul_self_nonneg x) ih

lemma all_zero_of_sumSq_eq_zero {a : List ℝ} (h : Ask.sumSq a = 0) :
    ∀ x ∈ a, x = 0 := by
  induction a with
  | nil => simp
  | cons x xs ih =>
    simp only [Ask.sumSq] at h
    have hsplit := (add_eq_zero_iff_of_nonneg (mul_self_nonneg x) (sumSq_nonneg xs)).mp h
    intro y hy
    rcases List.mem_cons.mp hy with rfl | hmem
    · exact mul_self_eq_zero.mp hsplit.1
    · exact ih hsplit.2 y hmem

lemma dot_eq_zero_left : ∀ (a b : List ℝ), (∀ x ∈ a, x = 0) → Ask.dot a b = 0
  | [], _, _ => rfl
  | _ :: _, [], _ => rfl
  | x :: xs, y :: ys, h => by
    simp only [Ask.dot]
    rw [h x (List.mem_cons_self x xs), dot_eq_zero_left xs ys
      (fun z hz => h z (List.mem_cons_of_mem x hz)), zero_mul, add_zero]

lemma dot_eq_zero_right : ∀ (a b : List ℝ), (∀ y ∈ b, y = 0) → Ask.dot a b = 0
  | [], _, _ => rfl
  | _ :: _, [], _ => rfl
  | x :: xs, y :: ys, h => by
    simp only [Ask.dot]
    rw [h y (List.mem_cons_self y ys), dot_eq_zero_right xs ys
      (fun z hz => h z (List.mem_cons_of_mem y hz)), mul_zero, zero_add]

lemma sumSq_eq_zero_of_mag_eq_zero {a : List ℝ} (h : Ask.mag a = 0) :
    Ask.sumSq a = 0 := by
  unfold Ask.mag at h
  exact le_antisymm (Real.sqrt_eq_zero'.mp h) (sumSq_nonneg a)

/-- Claim C7 (corrected): the guarded cosSim of src/api/ask.js returns 0
whenever either equal-length input vector has zero norm (its `|| 1` guard
makes the denominator 1 and the numerator is 0); the unguarded cosine of
src/unnamed/part_001 divides by the zero product of the norms instead and
yields NaN, not 0 — see the counterexample. -/
theorem C7_amended (a b : List ℝ) (hlen : a.length = b.length)
    (h : Ask.mag a = 0 ∨ Ask.mag b = 0) : Ask.cosSim a b = 0 := by
  have hz : Ask.dot a b = 0 := by
    rcases h with h | h
    · exact dot_eq_zero_left a b
        (all_zero_of_sumSq_eq_zero (sumSq_eq_zero_of_mag_eq_zero h))
    · exact dot_eq_zero_right a b
        (all_zero_of_sumSq_eq_zero (sumSq_eq_zero_of_mag_eq_zero h))
  unfold Ask.cosSim
  rw [hz, zero_div]

/-- Claim C7, witness: cosSim on the zero vector against (3,4) is 0. -/
theorem C7_witness : Ask.cosSim [(0 : ℝ), 0] [(3 : ℝ), 4] = 0 :=
  C7_amended [(0 : ℝ), 0] [(3 : ℝ), 4] (by decide)
    (Or.inl (by
      unfold Ask.mag
      rw [show Ask.sumSq [(0 : ℝ), 0] = 0 from by simp [Ask.sumSq], Real.sqrt_zero]))

/-- Claim C7, counterexample: the zero vector has zero norm, and cosine
(src/unnamed/part_001) applied to it is the JS value NaN (modelled as
`none`), not the number 0. -/
theorem C7_counterexample :
    Ask.mag [(0 : ℝ)] = 0 ∧ P001.cosine [(0 : ℝ)] [(1 : ℝ)] = none := by
  have h0 : Ask.sumSq [(0 : ℝ)] = 0 := by simp [Ask.sumSq]
  constructor
  · unfold Ask.mag
    rw [h0, Real.sqrt_zero]
  · unfold P001.cosine
    rw [if_pos (by rw [h0, Real.sqrt_zero, zero_mul])]

lemma count_coe_list (x : Char × Char) (l : List (Char × Char)) :
    Multiset.count x ↑l = l.count x := by
  induction l with
  | nil => simp
  | cons a t ih =>
    rw [show ((a :: t : List (Char × Char)) : Multiset (Char × Char)) = a ::ₘ ↑t from rfl,
      Multiset.count_cons, ih, List.count_cons]
    congr 1
    simp only [beq_iff_eq]
    by_cases hx : x = a
    · rw [if_pos hx, if_pos hx.symm]
    · rw [if_neg hx, if_neg (show ¬a = x from fun h => hx h.symm)]

lemma overlap_eq_card (A B : List (Char × Char)) :
    Dice.overlap A B =
      Multiset.card ((↑A : Multiset (Char × Char)) ∩ ↑B) := by
  have h1 : ∀ x ∈ (↑A : Multiset (Char × Char)) ∩ ↑B, x ∈ A.toFinset := by
    intro x hx
    have hxA : x ∈ (↑A : Multiset (Char × Char)) :=
      Multiset.mem_of_le (Multiset.inter_le_left _ _) hx
    simpa using hxA
  have hfun : (fun a => Multiset.count a ((↑A : Multiset (Char × Char)) ∩ ↑B)) =
      fun bg => min (A.count bg) (B.count bg) := by
    funext x
    rw [Multiset.count_inter, count_coe_list, count_coe_list]
  calc Dice.overlap A B
      = A.dedup.toFinset.sum (fun a => Multiset.count a ((↑A : Multiset (Char × Char)) ∩ ↑B)) := by
        rw [List.sum_toFinset _ (List.nodup_dedup A), hfun]
        rfl
    _ = A.toFinset.sum (fun a => Multiset.count a ((↑A : Multiset (Char × Char)) ∩ ↑B)) := by
        rw [show A.dedup.toFinset = A.toFinset from Finset.ext fun x => by simp]
    _ = Multiset.card ((↑A : Multiset (Char × Char)) ∩ ↑B) :=
        Multiset.sum_count_eq_card h1

lemma overlap_le_left (A B : List (Char × Char)) : Dice.overlap A B ≤ A.length := by
  rw [overlap_eq_card]
  have := Multiset.card_le_card (Multiset.inter_le_left (↑A : Multiset (Char × Char)) ↑B)
  simpa using this

lemma overlap_le_right (A B : List (Char × Char)) : Dice.overlap A B ≤ B.length := by
  rw [overlap_eq_card]
  have := Multiset.card_le_card (Multiset.inter_le_right (↑A : Multiset (Char × Char)) ↑B)
  simpa using this

lemma overlap_comm (A B : List (Char × Char)) : Dice.overlap A B = Dice.overlap B A := by
  rw [overlap_eq_card, overlap_eq_card, Multiset.inter_comm]

lemma bigrams_eq_nil_of_short {l : List Char} (h : l.length < 2) :
    Dice.bigrams l = [] := by
  cases l with
  | nil => rfl
  | cons a t =>
    cases t with
    | nil => rfl
    | cons b r =>
      exfalso
      simp only [List.length_cons] at h
      omega

/-- Claim C4 (corrected): the Dice similarity always lies in [0,1]; it is
1 whenever the two strings are identical and non-empty after
normalization; and it is 0 when either normalized string has fewer than 2
characters while the normalized strings differ.  (The converse of the
middle conjunct is false — equality of the bigram multisets already gives
1, and two strings normalizing to the same empty string give 0, not 1; see
the counterexample.) -/
theorem C4_amended (a b : List Char) :
    (0 ≤ Dice.diceCoefficient a b ∧ Dice.diceCoefficient a b ≤ 1) ∧
    (Dice.normalize a = Dice.normalize b → Dice.normalize a ≠ [] →
      Dice.diceCoefficient a b = 1) ∧
    (((Dice.normalize a).length < 2 ∨ (Dice.normalize b).length < 2) →
      Dice.normalize a ≠ Dice.normalize b → Dice.diceCoefficient a b = 0) := by
  by_cases h1 : Dice.normalize a = [] ∨ Dice.normalize b = []
  · have h0 : Dice.diceCoefficient a b = 0 := by
      unfold Dice.diceCoefficient
      rw [if_pos h1]
    refine ⟨⟨by rw [h0], by rw [h0]; norm_num⟩, ?_, fun _ _ => h0⟩
    intro heq hne
    rcases h1 with h | h
    · exact absurd h hne
    · rw [heq] at hne
      exact absurd h hne
  · by_cases h2 : Dice.normalize a = Dice.normalize b
    · have h0 : Dice.diceCoefficient a b = 1 := by
        unfold Dice.diceCoefficient
        rw [if_neg h1, if_pos h2]
      exact ⟨⟨by rw [h0]; norm_num, by rw [h0]⟩, fun _ _ => h0,
        fun _ hne => absurd h2 hne⟩
    · have hval : Dice.diceCoefficient a b =
          (2 * Dice.overlap (Dice.bigrams (Dice.normalize a)) (Dice.bigrams (Dice.normalize b)) : ℚ) /
            (if (Dice.bigrams (Dice.normalize a)).length + (Dice.bigrams (Dice.normalize b)).length = 0
             then 1
             else ((Dice.bigrams (Dice.normalize a)).length + (Dice.bigrams (Dice.normalize b)).length : ℚ)) := by
        unfold Dice.diceCoefficient
        rw [if_neg h1, if_neg h2]
      refine ⟨⟨?_, ?_⟩, fun heq _ => absurd heq h2, fun hshort hne => ?_⟩
      · rw [hval]
        apply div_nonneg (by positivity)
        by_cases hz : (Dice.bigrams (Dice.normalize a)).length + (Dice.bigrams (Dice.normalize b)).length = 0
        · rw [if_pos hz]; norm_num
        · rw [if_neg hz]; positivity
      · rw [hval]
        by_cases hz : (Dice.bigrams (Dice.normalize a)).length + (Dice.bigrams (Dice.normalize b)).length = 0
        · have hA : Dice.bigrams (Dice.normalize a) = [] :=
            List.eq_nil_of_length_eq_zero (by omega)
          rw [if_pos hz, hA]
          rw [show Dice.overlap [] (Dice.bigrams (Dice.normalize b)) = 0 from rfl]
          norm_num
        · rw [if_neg hz]
          rw [div_le_one (by
            have := Nat.pos_of_ne_zero hz
            exact_mod_cast Nat.cast_pos.mpr this)]
          have hle : 2 * Dice.overlap (Dice.bigrams (Dice.normalize a)) (Dice.bigrams (Dice.normalize b)) ≤
              (Dice.bigrams (Dice.normalize a)).length + (Dice.bigrams (Dice.normalize b)).length := by
            have l1 := overlap_le_left (Dice.bigrams (Dice.normalize a)) (Dice.bigrams (Dice.normalize b))
            have l2 := overlap_le_right (Dice.bigrams (Dice.normalize a)) (Dice.bigrams (Dice.normalize b))
            omega
          exact_mod_cast hle
      · rcases hshort with h | h
        · have hA : Dice.bigrams (Dice.normalize a) = [] := bigrams_eq_nil_of_short h
          rw [hval, hA]
          rw [show Dice.overlap [] (Dice.bigrams (Dice.normalize b)) = 0 from rfl]
          norm_num
        · have hB : Dice.bigrams (Dice.normalize b) = [] := bigrams_eq_nil_of_short h
          have hov : Dice.overlap (Dice.bigrams (Dice.normalize a)) [] = 0 := by
            rw [overlap_eq_card]
            simp
          rw [hval, hB, hov]
          norm_num

/-- Claim C4, witness: "ab" and "ab!" normalize to the same non-empty
string, so their Dice similarity is 1 (and in particular in range). -/
theorem C4_witness : Dice.diceCoefficient (chars "ab") (chars "ab!") = 1 :=
  (C4_amended (chars "ab") (chars "ab!")).2.1 (by decide) (by decide)

/-- Claim C4, counterexample: "abaca" and "acaba" have equal bigram
multisets, so their Dice similarity is 1 although they are not identical
after normalization — the "1.0 iff identical after normalization" clause
fails. -/
theorem C4_counterexample :
    Dice.diceCoefficient (chars "abaca") (chars "acaba") = 1 ∧
    Dice.normalize (chars "abaca") ≠ Dice.normalize (chars "acaba") := by
  constructor
  · unfold Dice.diceCoefficient
    rw [if_neg (by decide), if_neg (by decide)]
    have h1 : Dice.overlap (Dice.bigrams (Dice.normalize (chars "abaca")))
        (Dice.bigrams (Dice.normalize (chars "acaba"))) = 4 := by decide
    have h2 : (Dice.bigrams (Dice.normalize (chars "abaca"))).length = 4 := by decide
    have h3 : (Dice.bigrams (Dice.normalize (chars "acaba"))).length = 4 := by decide
    rw [h1, h2, h3]
    norm_num
  · decide

/-- Claim C6 (corrected): the Dice similarity is symmetric for all string
pairs, and `dice(a,a) = 1` holds for every string whose NORMALIZATION is
non-empty — a non-empty string that normalizes to the empty string (e.g.
"?") gets `dice(a,a) = 0` instead; see the counterexample. -/
theorem C6_amended :
    (∀ a b : List Char, Dice.diceCoefficient a b = Dice.diceCoefficient b a) ∧
    (∀ a : List Char, Dice.normalize a ≠ [] → Dice.diceCoefficient a a = 1) := by
  constructor
  · intro a b
    unfold Dice.diceCoefficient
    by_cases h1 : Dice.normalize a = [] ∨ Dice.normalize b = []
    · rw [if_pos h1, if_pos (Or.symm h1)]
    · rw [if_neg h1,
        if_neg (show ¬(Dice.normalize b = [] ∨ Dice.normalize a = []) from
          fun h => h1 (Or.symm h))]
      by_cases h2 : Dice.normalize a = Dice.normalize b
      · rw [if_pos h2, if_pos h2.symm]
      · rw [if_neg h2,
          if_neg (show ¬Dice.normalize b = Dice.normalize a from fun h => h2 h.symm)]
        rw [overlap_comm,
          Nat.add_comm ((Dice.bigrams (Dice.normalize a)).length)
            ((Dice.bigrams (Dice.normalize b)).length),
          add_comm ((Dice.bigrams (Dice.normalize a)).length : ℚ)
            ((Dice.bigrams (Dice.normalize b)).length : ℚ)]
  · intro a hne
    unfold Dice.diceCoefficient
    rw [if_neg (by simp [hne]), if_pos rfl]

/-- Claim C6, witness: symmetry at a concrete pair, and `dice(a,a) = 1`
for a string with non-empty normalization. -/
theorem C6_witness :
    Dice.diceCoefficient (chars "hund") (chars "kat") =
      Dice.diceCoefficient (chars "kat") (chars "hund") ∧
    Dice.diceCoefficient (chars "hund") (chars "hund") = 1 :=
  ⟨C6_amended.1 (chars "hund") (chars "kat"),
   C6_amended.2 (chars "hund") (by decide)⟩

/-- Claim C6, counterexample: "?" is a non-empty string but normalizes to
the empty string, so `dice("?","?")` is 0, not 1. -/
theorem C6_counterexample :
    Dice.diceCoefficient (chars "?") (chars "?") = 0 ∧ chars "?" ≠ [] := by
  constructor
  · unfold Dice.diceCoefficient
    rw [if_pos (by decide)]
  · decide

lemma char_toNat_ofNat {n : ℕ} (h : n.isValidChar) : (Char.ofNat n).toNat = n := by
  rw [Char.ofNat, dif_pos h]
  rfl

/-- The lower-cased image of an ASCII uppercase letter is inert for every
per-character operation of the two normalizers: it has no decomposition,
is not a combining mark, is a `toLowerCase` fixed point, and is none of
the folded Danish letters. -/
lemma ascii_lower_props {c : Char} (h : 65 ≤ c.toNat ∧ c.toNat ≤ 90) :
    nfkdChar (Char.ofNat (c.toNat + 32)) = [Char.ofNat (c.toNat + 32)] ∧
    isDiacritic (Char.ofNat (c.toNat + 32)) = false ∧
    jsLower (Char.ofNat (c.toNat + 32)) = Char.ofNat (c.toNat + 32) ∧
    Char.ofNat (c.toNat + 32) ≠ 'æ' ∧ Char.ofNat (c.toNat + 32) ≠ 'ø' ∧
    Char.ofNat (c.toNat + 32) ≠ 'å' := by
  have hval : (c.toNat + 32).isValidChar := Or.inl (by omega)
  have htn : (Char.ofNat (c.toNat + 32)).toNat = c.toNat + 32 := char_toNat_ofNat hval
  have hne : ∀ d : Char, c.toNat + 32 ≠ d.toNat → Char.ofNat (c.toNat + 32) ≠ d :=
    fun d hd he => hd (by rw [← he, htn])
  have hAring : Char.ofNat (c.toNat + 32) ≠ 'Å' :=
    hne 'Å' (by rw [show ('Å' : Char).toNat = 197 from by decide]; omega)
  have haring : Char.ofNat (c.toNat + 32) ≠ 'å' :=
    hne 'å' (by rw [show ('å' : Char).toNat = 229 from by decide]; omega)
  have hEac : Char.ofNat (c.toNat + 32) ≠ 'É' :=
    hne 'É' (by rw [show ('É' : Char).toNat = 201 from by decide]; omega)
  have heac : Char.ofNat (c.toNat + 32) ≠ 'é' :=
    hne 'é' (by rw [show ('é' : Char).toNat = 233 from by decide]; omega)
  refine ⟨?_, ?_, ?_, ?_, ?_, haring⟩
  · unfold nfkdChar
    rw [if_neg hAring, if_neg haring, if_neg hEac, if_neg heac]
  · unfold isDiacritic
    have hr : Char.ofNat (c.toNat + 32) ≠ cRing :=
      hne cRing (by rw [show cRing.toNat = 778 from by decide]; omega)
    have ha : Char.ofNat (c.toNat + 32) ≠ cAcute :=
      hne cAcute (by rw [show cAcute.toNat = 769 from by decide]; omega)
    rw [decide_eq_false hr, decide_eq_false ha]
    rfl
  · unfold jsLower
    rw [if_neg (hne 'Æ' (by rw [show ('Æ' : Char).toNat = 198 from by decide]; omega)),
      if_neg (hne 'Ø' (by rw [show ('Ø' : Char).toNat = 216 from by decide]; omega)),
      if_neg hAring, if_neg hEac, if_neg (by rw [htn]; omega)]
  · exact hne 'æ' (by rw [show ('æ' : Char).toNat = 230 from by decide]; omega)
  · exact hne 'ø' (by rw [show ('ø' : Char).toNat = 248 from by decide]; omega)

lemma dropWhile_head_not {p : Char → Bool} (l : List Char) :
    ∀ c, ((l.dropWhile p).head? = some c) → p c = false := by
  induction l with
  | nil => intro c h; simp [List.dropWhile] at h
  | cons a t ih =>
    intro c h
    rw [List.dropWhile_cons] at h
    by_cases ha : p a
    · rw [if_pos ha] at h
      exact ih c h
    · rw [if_neg ha] at h
      have : a = c := by simpa using h
      subst this
      exact Bool.eq_false_iff.mpr ha

lemma dropWhile_eq_self_of_head {p : Char → Bool} {l : List Char}
    (h : ∀ c, l.head? = some c → p c = false) : l.dropWhile p = l := by
  cases l with
  | nil => rfl
  | cons a t =>
    rw [List.dropWhile_cons, if_neg]
    rw [h a rfl]
    simp

lemma getLast?_dropWhile {p : Char → Bool} : ∀ l : List Char,
    l.dropWhile p ≠ [] → (l.dropWhile p).getLast? = l.getLast? := by
  intro l
  induction l with
  | nil => intro h; exact absurd rfl h
  | cons a t ih =>
    intro h
    rw [List.dropWhile_cons] at h ⊢
    by_cases ha : p a
    · rw [if_pos ha] at h ⊢
      have ht : t ≠ [] := by
        intro h0
        rw [h0] at h
        exact h rfl
      rw [ih h]
      cases t with
      | nil => exact absurd rfl ht
      | cons b r => rw [List.getLast?_cons_cons]
    · rw [if_neg ha]

lemma trimL_head_not (t : List Char) :
    ∀ c, (trimL t).head? = some c → isWS c = false := by
  intro c h
  unfold trimL at h
  rw [List.head?_reverse] at h
  by_cases hne : (List.dropWhile isWS t).reverse.dropWhile isWS = []
  · rw [hne] at h
    simp at h
  · rw [getLast?_dropWhile _ hne, List.getLast?_reverse] at h
    exact dropWhile_head_not t c h

lemma trimL_getLast_not (t : List Char) :
    ∀ c, (trimL t).getLast? = some c → isWS c = false := by
  intro c h
  unfold trimL at h
  rw [List.getLast?_reverse] at h
  exact dropWhile_head_not _ c h

lemma trimL_eq_self {l : List Char} (h1 : ∀ c, l.head? = some c → isWS c = false)
    (h2 : ∀ c, l.getLast? = some c → isWS c = false) : trimL l = l := by
  unfold trimL
  rw [dropWhile_eq_self_of_head h1,
    dropWhile_eq_self_of_head (fun c hc => h2 c (by rwa [List.head?_reverse] at hc)),
    List.reverse_reverse]

lemma trimL_idem (t : List Char) : trimL (trimL t) = trimL t :=
  trimL_eq_self (trimL_head_not t) (trimL_getLast_not t)

lemma mem_trimL {c : Char} {t : List Char} (h : c ∈ trimL t) : c ∈ t := by
  unfold trimL at h
  rw [List.mem_reverse] at h
  have h3 := (List.dropWhile_sublist isWS).subset h
  rw [List.mem_reverse] at h3
  exact (List.dropWhile_sublist isWS).subset h3

/-- Every character of a per-character NFKD decomposition that survives
the diacritic strip becomes, after lower-casing, inert for all three
character operations of the ask.js normalize. -/
lemma stripA_good : ∀ c d : Char, d ∈ nfkdChar c → isDiacritic d = false →
    nfkdChar (jsLower d) = [jsLower d] ∧ isDiacritic (jsLower d) = false ∧
      jsLower (jsLower d) = jsLower d := by
  intro c d hd hdia
  unfold nfkdChar at hd
  by_cases h1 : c = 'Å'
  · rw [if_pos h1] at hd
    rcases by simpa using hd with rfl | rfl
    · decide
    · exact absurd hdia (by decide)
  · rw [if_neg h1] at hd
    by_cases h2 : c = 'å'
    · rw [if_pos h2] at hd
      rcases by simpa using hd with rfl | rfl
      · decide
      · exact absurd hdia (by decide)
    · rw [if_neg h2] at hd
      by_cases h3 : c = 'É'
      · rw [if_pos h3] at hd
        rcases by simpa using hd with rfl | rfl
        · decide
        · exact absurd hdia (by decide)
      · rw [if_neg h3] at hd
        by_cases h4 : c = 'é'
        · rw [if_pos h4] at hd
          rcases by simpa using hd with rfl | rfl
          · decide
          · exact absurd hdia (by decide)
        · rw [if_neg h4] at hd
          have hc : d = c := by simpa using hd
          subst hc
          have hnfkd : nfkdChar d = [d] := by
            unfold nfkdChar
            rw [if_neg h1, if_neg h2, if_neg h3, if_neg h4]
          by_cases g1 : d = 'Æ'
          · subst g1; decide
          · by_cases g2 : d = 'Ø'
            · subst g2; decide
            · by_cases g5 : 65 ≤ d.toNat ∧ d.toNat ≤ 90
              · have hjs : jsLower d = Char.ofNat (d.toNat + 32) := by
                  unfold jsLower
                  rw [if_neg g1, if_neg g2, if_neg h1, if_neg h3, if_pos g5]
                rw [hjs]
                obtain ⟨p1, p2, p3, _, _, _⟩ := ascii_lower_props g5
                exact ⟨p1, p2, p3⟩
              · have hjs : jsLower d = d := by
                  unfold jsLower
                  rw [if_neg g1, if_neg g2, if_neg h1, if_neg h3, if_neg g5]
                rw [hjs]
                exact ⟨hnfkd, hdia, hjs⟩

/-- Lists of inert characters are fixed points of the decompose, strip
and lower-case part of the ask.js normalize. -/
lemma normA_core_eq_self : ∀ t : List Char,
    (∀ c ∈ t, nfkdChar c = [c] ∧ isDiacritic c = false ∧ jsLower c = c) →
    ((t.map nfkdChar).flatten.filter (fun c => !isDiacritic c)).map jsLower = t := by
  intro t ht
  induction t with
  | nil => rfl
  | cons c r ih =>
    have hc := ht c (List.mem_cons_self c r)
    have hr : ∀ d ∈ r, nfkdChar d = [d] ∧ isDiacritic d = false ∧ jsLower d = d :=
      fun d hd => ht d (List.mem_cons_of_mem c hd)
    rw [List.map_cons, List.flatten_cons, hc.1, List.singleton_append,
      List.filter_cons_of_pos (by rw [hc.2.1]; rfl), List.map_cons, hc.2.2, ih hr]

/-- Every character the ask.js normalize emits (before trimming) is inert
for decompose, strip and lower-case. -/
lemma normA_chars_good (s : List Char) :
    ∀ c ∈ ((s.map nfkdChar).flatten.filter (fun c => !isDiacritic c)).map jsLower,
      nfkdChar c = [c] ∧ isDiacritic c = false ∧ jsLower c = c := by
  intro c hc
  rw [List.mem_map] at hc
  obtain ⟨d, hd, rfl⟩ := hc
  rw [List.mem_filter] at hd
  obtain ⟨hdmem, hdstrip⟩ := hd
  rw [List.mem_flatten] at hdmem
  obtain ⟨L, hL, hdL⟩ := hdmem
  rw [List.mem_map] at hL
  obtain ⟨c0, _, rfl⟩ := hL
  exact stripA_good c0 d hdL (by simpa using hdstrip)

lemma normalizeA_idem (s : List Char) :
    Ask.normalize (Ask.normalize s) = Ask.normalize s := by
  unfold Ask.normalize
  rw [normA_core_eq_self _ (fun c hc => normA_chars_good s c (mem_trimL hc)), trimL_idem]

/-- Characters of a per-character NFD decomposition of a lower-cased
character that survive the combining-mark strip are inert for lower-case,
NFD and the mark strip. -/
lemma stripB_good : ∀ c d : Char, d ∈ nfdChar (jsLower c) → isDiacritic d = false →
    jsLower d = d ∧ nfdChar d = [d] ∧ isDiacritic d = false := by
  intro c d hd hdia
  unfold jsLower at hd
  by_cases g1 : c = 'Æ'
  · rw [if_pos g1, show nfdChar 'æ' = ['æ'] from by decide] at hd
    have : d = 'æ' := by simpa using hd
    subst this; decide
  · rw [if_neg g1] at hd
    by_cases g2 : c = 'Ø'
    · rw [if_pos g2, show nfdChar 'ø' = ['ø'] from by decide] at hd
      have : d = 'ø' := by simpa using hd
      subst this; decide
    · rw [if_neg g2] at hd
      by_cases g3 : c = 'Å'
      · rw [if_pos g3, show nfdChar 'å' = ['a', cRing] from by decide] at hd
        rcases by simpa using hd with rfl | rfl
        · decide
        · exact absurd hdia (by decide)
      · rw [if_neg g3] at hd
        by_cases g4 : c = 'É'
        · rw [if_pos g4, show nfdChar 'é' = ['e', cAcute] from by decide] at hd
          rcases by simpa using hd with rfl | rfl
          · decide
          · exact absurd hdia (by decide)
        · rw [if_neg g4] at hd
          by_cases g5 : 65 ≤ c.toNat ∧ c.toNat ≤ 90
          · rw [if_pos g5] at hd
            obtain ⟨p1, p2, p3, _, _, _⟩ := ascii_lower_props g5
            rw [show nfdChar (Char.ofNat (c.toNat + 32)) = [Char.ofNat (c.toNat + 32)] from p1] at hd
            have : d = Char.ofNat (c.toNat + 32) := by simpa using hd
            subst this
            exact ⟨p3, p1, p2⟩
          · rw [if_neg g5] at hd
            unfold nfdChar nfkdChar at hd
            rw [if_neg g3] at hd
            by_cases g6 : c = 'å'
            · rw [if_pos g6] at hd
              rcases by simpa using hd with rfl | rfl
              · decide
              · exact absurd hdia (by decide)
            · rw [if_neg g6, if_neg g4] at hd
              by_cases g7 : c = 'é'
              · rw [if_pos g7] at hd
                rcases by simpa using hd with rfl | rfl
                · decide
                · exact absurd hdia (by decide)
              · rw [if_neg g7] at hd
                have : d = c := by simpa using hd
                subst this
                refine ⟨?_, ?_, hdia⟩
                · unfold jsLower
                  rw [if_neg g1, if_neg g2, if_neg g3, if_neg g4, if_neg g5]
                · unfold nfdChar nfkdChar
                  rw [if_neg g3, if_neg g6, if_neg g4, if_neg g7]

/-- Every character emitted by the æ/ø/å folding step on a stripped,
lower-cased, NFD-decomposed character is inert for all four character
operations of the part_002 normalize. -/
lemma foldB_chars_good : ∀ c0 d e : Char, d ∈ nfdChar (jsLower c0) →
    isDiacritic d = false →
    e ∈ (if d = 'æ' then ['a', 'e'] else if d = 'ø' then ['o', 'e']
         else if d = 'å' then ['a', 'a'] else [d]) →
    jsLower e = e ∧ nfdChar e = [e] ∧ isDiacritic e = false ∧
      e ≠ 'æ' ∧ e ≠ 'ø' ∧ e ≠ 'å' := by
  intro c0 d e hd hdia he
  have hd' := stripB_good c0 d hd hdia
  by_cases f1 : d = 'æ'
  · rw [if_pos f1] at he
    rcases by simpa using he with rfl | rfl <;> decide
  · rw [if_neg f1] at he
    by_cases f2 : d = 'ø'
    · rw [if_pos f2] at he
      rcases by simpa using he with rfl | rfl <;> decide
    · rw [if_neg f2] at he
      by_cases f3 : d = 'å'
      · rw [if_pos f3] at he
        rcases by simpa using he with rfl | rfl <;> decide
      · rw [if_neg f3] at he
        have : e = d := by simpa using he
        subst this
        exact ⟨hd'.1, hd'.2.1, hd'.2.2, f1, f2, f3⟩

/-- Lists of inert characters are fixed points of the lower-case,
decompose, strip and fold part of the part_002 normalize. -/
lemma normB_core_eq_self : ∀ t : List Char,
    (∀ c ∈ t, jsLower c = c ∧ nfdChar c = [c] ∧ isDiacritic c = false ∧
      c ≠ 'æ' ∧ c ≠ 'ø' ∧ c ≠ 'å') →
    ((((t.map jsLower).map nfdChar).flatten.filter (fun c => !isDiacritic c)).map
        (fun c =>
          if c = 'æ' then ['a', 'e']
          else if c = 'ø' then ['o', 'e']
          else if c = 'å' then ['a', 'a']
          else [c])).flatten = t := by
  intro t ht
  induction t with
  | nil => rfl
  | cons c r ih =>
    have hc := ht c (List.mem_cons_self c r)
    have hr : ∀ d ∈ r, jsLower d = d ∧ nfdChar d = [d] ∧ isDiacritic d = false ∧
        d ≠ 'æ' ∧ d ≠ 'ø' ∧ d ≠ 'å' :=
      fun d hd => ht d (List.mem_cons_of_mem c hd)
    rw [List.map_cons, hc.1, List.map_cons, hc.2.1, List.flatten_cons,
      List.singleton_append, List.filter_cons_of_pos (by rw [hc.2.2.1]; rfl),
      List.map_cons, if_neg hc.2.2.2.1, if_neg hc.2.2.2.2.1, if_neg hc.2.2.2.2.2,
      List.flatten_cons, List.singleton_append, ih hr]

/-- Every character the part_002 normalize emits (before whitespace
collapapse and trim) is inert for its four character operations. -/
lemma normB_chars_good (s : List Char) :
    ∀ e ∈ ((((s.map jsLower).map nfdChar).flatten.filter (fun c => !isDiacritic c)).map
        (fun c =>
          if c = 'æ' then ['a', 'e']
          else if c = 'ø' then ['o', 'e']
          else if c = 'å' then ['a', 'a']
          else [c])).flatten,
      jsLower e = e ∧ nfdChar e = [e] ∧ isDiacritic e = false ∧
        e ≠ 'æ' ∧ e ≠ 'ø' ∧ e ≠ 'å' := by
  intro e he
  rw [List.mem_flatten] at he
  obtain ⟨F, hF, heF⟩ := he
  rw [List.mem_map] at hF
  obtain ⟨d, hd, rfl⟩ := hF
  rw [List.mem_filter] at hd
  obtain ⟨hdmem, hdstrip⟩ := hd
  rw [List.mem_flatten] at hdmem
  obtain ⟨L, hL, hdL⟩ := hdmem
  rw [List.mem_map] at hL
  obtain ⟨y, hy, rfl⟩ := hL
  rw [List.mem_map] at hy
  obtain ⟨c0, _, rfl⟩ := hy
  exact foldB_chars_good c0 d e hdL (by simpa using hdstrip) heF

lemma collapseWS_cons (a : Char) (t : List Char) :
    collapseWS (a :: t) =
      if isWS a then
        match collapseWS t with
        | [] => [' ']
        | d :: rest => if d = ' ' then d :: rest else ' ' :: d :: rest
      else a :: collapseWS t := rfl

lemma mem_collapseWS {c : Char} : ∀ {l : List Char}, c ∈ collapseWS l → c ∈ l ∨ c = ' '
  | [], h => by simp [collapseWS] at h
  | a :: t, h => by
    rw [collapseWS_cons] at h
    by_cases ha : isWS a
    · rw [if_pos ha] at h
      cases hct : collapseWS t with
      | nil =>
        rw [hct] at h
        right
        simpa using h
      | cons d rest =>
        rw [hct] at h
        by_cases hd : d = ' '
        · simp only [if_pos hd] at h
          rcases mem_collapseWS (hct ▸ h) with h2 | h2
          · exact Or.inl (List.mem_cons_of_mem a h2)
          · exact Or.inr h2
        · simp only [if_neg hd] at h
          rcases List.mem_cons.mp h with rfl | h2
          · exact Or.inr rfl
          · rcases mem_collapseWS (hct ▸ h2) with h3 | h3
            · exact Or.inl (List.mem_cons_of_mem a h3)
            · exact Or.inr h3
    · rw [if_neg ha] at h
      rcases List.mem_cons.mp h with rfl | h2
      · exact Or.inl (List.mem_cons_self c t)
      · rcases mem_collapseWS h2 with h3 | h3
        · exact Or.inl (List.mem_cons_of_mem a h3)
        · exact Or.inr h3

lemma collapseWS_props : ∀ l : List Char,
    (∀ c ∈ collapseWS l, isWS c = true → c = ' ') ∧
    List.Chain' (fun a b => isWS a = false ∨ isWS b = false) (collapseWS l) := by
  intro l
  induction l with
  | nil => exact ⟨by simp [collapseWS], by simp [collapseWS]⟩
  | cons a t ih =>
    obtain ⟨ih1, ih2⟩ := ih
    rw [collapseWS_cons]
    by_cases ha : isWS a
    · rw [if_pos ha]
      cases hct : collapseWS t with
      | nil =>
        refine ⟨?_, ?_⟩
        · intro c hc _
          simpa using hc
        · simp
      | cons d rest =>
        rw [hct] at ih1 ih2
        by_cases hd : d = ' '
        · simp only [if_pos hd]
          exact ⟨ih1, ih2⟩
        · simp only [if_neg hd]
          have hdws : isWS d = false := by
            cases hw : isWS d with
            | false => rfl
            | true => exact absurd (ih1 d (List.mem_cons_self d rest) hw) hd
          refine ⟨?_, ?_⟩
          · intro c hc hw
            rcases List.mem_cons.mp hc with rfl | h2
            · rfl
            · exact ih1 c h2 hw
          · rw [List.chain'_cons]
            exact ⟨Or.inr hdws, ih2⟩
    · rw [if_neg ha]
      have haf : isWS a = false := Bool.eq_false_iff.mpr ha
      refine ⟨?_, ?_⟩
      · intro c hc hw
        rcases List.mem_cons.mp hc with rfl | h2
        · rw [haf] at hw
          exact absurd hw (by simp)
        · exact ih1 c h2 hw
      · rw [List.chain'_cons']
        exact ⟨fun b _ => Or.inl haf, ih2⟩

lemma collapseWS_eq_self : ∀ {l : List Char},
    (∀ c ∈ l, isWS c = true → c = ' ') →
    List.Chain' (fun a b => isWS a = false ∨ isWS b = false) l →
    collapseWS l = l := by
  intro l
  induction l with
  | nil => intro _ _; rfl
  | cons a t ih =>
    intro h1 h2
    have iht : collapseWS t = t :=
      ih (fun c hc => h1 c (List.mem_cons_of_mem a hc)) h2.tail
    rw [collapseWS_cons, iht]
    by_cases ha : isWS a
    · have ha' : a = ' ' := h1 a (List.mem_cons_self a t) ha
      rw [if_pos ha]
      cases t with
      | nil => rw [ha']
      | cons d rest =>
        have hR := (List.chain'_cons.mp h2).1
        have hdf : isWS d = false := by
          rcases hR with h | h
          · rw [ha] at h
            exact absurd h (by simp)
          · exact h
        have hd : d ≠ ' ' := by
          intro he
          rw [he] at hdf
          exact absurd hdf (by decide)
        simp only [if_neg hd]
        rw [ha']
    · rw [if_neg ha]

lemma chain'_trimL {R : Char → Char → Prop} (hsymm : ∀ a b, R a b → R b a)
    {l : List Char} (h : List.Chain' R l) : List.Chain' R (trimL l) := by
  unfold trimL
  have h1 : List.Chain' R (l.dropWhile isWS) := h.suffix (List.dropWhile_suffix isWS)
  have h2 : List.Chain' R (l.dropWhile isWS).reverse :=
    List.chain'_reverse.mpr (h1.imp fun a b hab => hsymm a b hab)
  have h3 : List.Chain' R ((l.dropWhile isWS).reverse.dropWhile isWS) :=
    h2.suffix (List.dropWhile_suffix isWS)
  exact List.chain'_reverse.mpr (h3.imp fun a b hab => hsymm a b hab)

lemma normalizeB_idem (s : List Char) :
    P002.normalize (P002.normalize s) = P002.normalize s := by
  unfold P002.normalize
  rw [normB_core_eq_self _ (fun c hc => by
    rcases mem_collapseWS (mem_trimL hc) with h | h
    · exact normB_chars_good s c h
    · subst h; decide)]
  rw [collapseWS_eq_self
    (fun c hc hw => (collapseWS_props _).1 c (mem_trimL hc) hw)
    (chain'_trimL (fun a b hab => hab.symm) (collapseWS_props _).2)]
  exact trimL_idem _

/-- Claim C5 (confirmed): both normalize functions of the repository —
the NFKD/diacritic-strip/lower/trim normalize of src/api/ask.js and the
lower/NFD/strip/æøå-fold/whitespace-collapse/trim normalize of
src/unnamed/part_002 — are idempotent on every input, including the empty
string and strings consisting only of diacritics. -/
theorem C5_normalize_idem (s : List Char) :
    Ask.normalize (Ask.normalize s) = Ask.normalize s ∧
    P002.normalize (P002.normalize s) = P002.normalize s :=
  ⟨normalizeA_idem s, normalizeB_idem s⟩

